import Mathlib

/-!
Verification development for the eBEAM2024-Tutorial repository.

The repository is a set of teaching notebooks whose decomposition
workflow (matrix building, SVD/NMF/ICA decomposition, variance ranking,
un-flattening) is specified as a reference design; the notebooks call an
external library for it.  Those components are modelled here from the
specification.  Two pieces of code that do live in the repository — the
offset-subtraction step `s.data -= s.data.min()` and the `to_ragged`
helper — are embedded directly from the source.
-/

namespace EBeam

/-- Row-major flattening of a multi-index `idx` over a shape:
`ravelIdx (d1 :: ds) (i1 :: is) = i1 * prod ds + ravelIdx ds is`. -/
def ravelIdx : List ℕ → List ℕ → ℕ
  | _ :: ds, i :: is => i * ds.prod + ravelIdx ds is
  | _, _ => 0

/-- Row-major un-flattening of a flat position into a multi-index. -/
def unravelIdx : List ℕ → ℕ → List ℕ
  | [] , _ => []
  | _ :: ds, p => (p / ds.prod) :: unravelIdx ds (p % ds.prod)

/-- A multi-index is valid for a shape when it has the same length and is
pointwise strictly below the shape. -/
def ValidIdx (shape idx : List ℕ) : Prop := List.Forall₂ (· < ·) idx shape

theorem ravelIdx_lt {shape idx : List ℕ} (h : ValidIdx shape idx) :
    ravelIdx shape idx < shape.prod := by
  induction h with
  | nil => simp [ravelIdx]
  | @cons i d is ds hid _ ih =>
      have hds : 0 < ds.prod := by omega
      calc ravelIdx (d :: ds) (i :: is) = i * ds.prod + ravelIdx ds is := rfl
        _ < i * ds.prod + ds.prod := by omega
        _ = (i + 1) * ds.prod := by ring
        _ ≤ d * ds.prod := Nat.mul_le_mul_right _ (by omega)
        _ = (d :: ds).prod := by simp [Nat.mul_comm]

theorem ravelIdx_unravelIdx {shape : List ℕ} {p : ℕ} (hp : p < shape.prod) :
    ravelIdx shape (unravelIdx shape p) = p := by
  induction shape generalizing p with
  | nil => simp at hp; simp [unravelIdx, ravelIdx, hp]
  | cons d ds ih =>
      have hds : 0 < ds.prod := by
        rcases Nat.eq_zero_or_pos ds.prod with h0 | h0
        · simp [List.prod_cons, h0] at hp
        · exact h0
      have hmod : p % ds.prod < ds.prod := Nat.mod_lt _ hds
      simp only [unravelIdx, ravelIdx, ih hmod]
      rw [Nat.mul_comm, Nat.div_add_mod]

theorem flatMap_congr {α β : Type} (l : List α) (f g : α → List β)
    (h : ∀ a ∈ l, f a = g a) : l.flatMap f = l.flatMap g := by
  induction l with
  | nil => rfl
  | cons a t ih =>
      simp only [List.flatMap_cons, h a (by simp),
        ih (fun x hx => h x (by simp [hx]))]

theorem flatMap_range_map {β : Type} (R C : ℕ) (f : ℕ → β) :
    (List.range R).flatMap (fun p => (List.range C).map (fun c => f (p * C + c)))
      = (List.range (R * C)).map f := by
  induction R with
  | zero => simp
  | succ R ih =>
      rw [List.range_succ, List.flatMap_append, ih, Nat.succ_mul,
        List.range_add, List.map_append]
      simp [Function.comp]

theorem map_range_getD {β : Type} (d : β) (l : List β) :
    (List.range l.length).map (fun k => l.getD k d) = l := by
  apply List.ext_getElem
  · simp
  · intro i h1 h2
    simp only [List.getElem_map, List.getElem_range]
    exact List.getD_eq_getElem l d h2

/-- Rebuilding a flat list of length `R * C` by gathering its entries in
row-major order returns the list itself. -/
theorem flatMap_range_getD (R C : ℕ) (l : List ℚ) (hl : l.length = R * C) :
    (List.range R).flatMap (fun p =>
      (List.range C).map (fun ch => l.getD (p * C + ch) 0)) = l := by
  have h := flatMap_range_map R C (fun k => l.getD k 0)
  calc (List.range R).flatMap (fun p =>
        (List.range C).map (fun ch => l.getD (p * C + ch) 0))
      = (List.range (R * C)).map (fun k => l.getD k 0) := h
    _ = (List.range l.length).map (fun k => l.getD k 0) := by rw [hl]
    _ = l := map_range_getD 0 l

/-- A hyperspectral cube: navigation shape, signal length, and the sample
data as one flat row-major list (navigation axes slowest, signal axis
fastest).  Modelled from the spec: ordered sequence of numeric samples
indexed by navigation coordinates plus one signal coordinate. -/
structure Cube where
  navShape : List ℕ
  sigLen : ℕ
  data : List ℚ
deriving DecidableEq, Repr

/-- The cube's total-count invariant from the data model. -/
def Cube.wf (c : Cube) : Prop := c.data.length = c.navShape.prod * c.sigLen

/-- Value of a cube at a navigation multi-index and channel. -/
def Cube.at' (c : Cube) (idx : List ℕ) (ch : ℕ) : ℚ :=
  c.data.getD (ravelIdx c.navShape idx * c.sigLen + ch) 0

/-- A 2-D observation matrix: rows = flattened navigation pixels, columns =
signal channels, stored flat in row-major order.  Modelled from the spec. -/
structure ObsMatrix where
  rows : ℕ
  cols : ℕ
  data : List ℚ
deriving DecidableEq, Repr

/-- Value of an observation matrix at row `p`, column `ch`. -/
def ObsMatrix.at' (m : ObsMatrix) (p ch : ℕ) : ℚ :=
  m.data.getD (p * m.cols + ch) 0

deriving instance DecidableEq for Except

/-- Error taxonomy.  Modelled from the spec §7. -/
inductive DecompError where
  | ShapeError
  | DomainError
  | RankError
deriving DecidableEq, Repr

/-- Modelled from the spec: the Matrix Builder reshapes a cube into a
(pixels × channels) observation matrix, gathering entries in the stable
row-major order over the navigation axes; it fails with `ShapeError` if
the cube is empty or has zero signal length. -/
def buildMatrix (c : Cube) : Except DecompError ObsMatrix :=
  if c.navShape.prod = 0 ∨ c.sigLen = 0 then .error .ShapeError
  else .ok ⟨c.navShape.prod, c.sigLen,
    (List.range c.navShape.prod).flatMap (fun p =>
      (List.range c.sigLen).map (fun ch => c.at' (unravelIdx c.navShape p) ch))⟩

/-- Modelled from the spec: Reconstruction/Un-flatten inverts the Matrix
Builder, rebuilding the cube from the matrix with the same row-major
convention; it fails with `ShapeError` on a dimension mismatch. -/
def reshapeCube (navShape : List ℕ) (m : ObsMatrix) : Except DecompError Cube :=
  if m.rows = navShape.prod then
    .ok ⟨navShape, m.cols,
      (List.range m.rows).flatMap (fun p =>
        (List.range m.cols).map (fun ch => m.at' p ch))⟩
  else .error .ShapeError

theorem buildMatrix_data {c : Cube} (hc : c.wf) (h1 : c.navShape.prod ≠ 0)
    (h2 : c.sigLen ≠ 0) :
    buildMatrix c = .ok ⟨c.navShape.prod, c.sigLen, c.data⟩ := by
  rw [buildMatrix, if_neg (by push_neg; exact ⟨h1, h2⟩)]
  congr 1
  refine ObsMatrix.mk.injEq .. ▸ ⟨rfl, rfl, ?_⟩
  have hgather : (List.range c.navShape.prod).flatMap (fun p =>
      (List.range c.sigLen).map (fun ch => c.at' (unravelIdx c.navShape p) ch))
      = (List.range c.navShape.prod).flatMap (fun p =>
      (List.range c.sigLen).map (fun ch => c.data.getD (p * c.sigLen + ch) 0)) := by
    apply flatMap_congr
    intro p hp
    have hp' : p < c.navShape.prod := List.mem_range.mp hp
    apply List.map_congr_left
    intro ch _
    simp only [Cube.at', ravelIdx_unravelIdx hp']
  rw [hgather, flatMap_range_getD _ _ _ hc]

/-- C1 round-trip: un-flattening the flattened cube returns the cube. -/
theorem reshape_buildMatrix (c : Cube) (hc : c.wf) (h1 : c.navShape.prod ≠ 0)
    (h2 : c.sigLen ≠ 0) :
    (buildMatrix c).bind (reshapeCube c.navShape) = .ok c := by
  rw [buildMatrix_data hc h1 h2]
  show reshapeCube c.navShape ⟨c.navShape.prod, c.sigLen, c.data⟩ = .ok c
  rw [reshapeCube, if_pos rfl]
  congr 1
  have h : (List.range c.navShape.prod).flatMap (fun p =>
      (List.range c.sigLen).map (fun ch =>
        (ObsMatrix.mk c.navShape.prod c.sigLen c.data).at' p ch)) = c.data := by
    simp only [ObsMatrix.at']
    exact flatMap_range_getD _ _ _ hc
  cases c with
  | mk nav sig dat => simpa using h

/-- A concrete cube with navigation shape (2,3) and signal length 2. -/
def cube₀ : Cube := ⟨[2, 3], 2, [5, 7, 11, 13, 17, 19, 23, 29, 31, 37, 41, 43]⟩

/-- Witness for C1 at the concrete cube `cube₀`. -/
theorem reshape_buildMatrix_witness :
    (buildMatrix cube₀).bind (reshapeCube cube₀.navShape) = .ok cube₀ :=
  reshape_buildMatrix cube₀ rfl (by decide) (by decide)

/-- C4: the Matrix Builder, applied to a non-empty Cube with positive
signal length, returns an Observation Matrix of shape
(prod of navigation sizes, signal length); it fails with `ShapeError`
exactly when the Cube is empty or has zero signal length. -/
theorem buildMatrix_shape_spec (c : Cube) :
    ((∃ M, buildMatrix c = .ok M ∧ M.rows = c.navShape.prod ∧ M.cols = c.sigLen)
      ↔ (c.navShape.prod ≠ 0 ∧ c.sigLen ≠ 0)) ∧
    (buildMatrix c = .error .ShapeError ↔ (c.navShape.prod = 0 ∨ c.sigLen = 0)) := by
  by_cases h : c.navShape.prod = 0 ∨ c.sigLen = 0
  · rw [buildMatrix, if_pos h]
    constructor
    · constructor
      · rintro ⟨M, hM, -⟩; exact absurd hM (by simp)
      · rintro ⟨h1, h2⟩; exact absurd h (by tauto)
    · exact iff_of_true rfl h
  · rw [buildMatrix, if_neg h]
    push_neg at h
    constructor
    · constructor
      · intro _; exact h
      · intro _; exact ⟨_, rfl, rfl, rfl⟩
    · exact iff_of_false (by simp) (by tauto)

/-- Modelled from the spec: Variance Ranking takes the singular values of
the SVD path and returns each component's share of total variance,
`s_i ^ 2 / (sum of s_j ^ 2)`, ordered descending. -/
def explainedVarianceRatios (svals : List ℚ) : List ℚ :=
  List.insertionSort (· ≥ ·)
    (svals.map (fun s => s ^ 2 / (svals.map (fun t => t ^ 2)).sum))

theorem sumsq_nonneg (svals : List ℚ) : 0 ≤ (svals.map (fun t => t ^ 2)).sum :=
  List.sum_nonneg (by
    intro x hx
    obtain ⟨t, -, rfl⟩ := List.mem_map.mp hx
    positivity)

theorem ratio_bounds {svals : List ℚ} {x : ℚ}
    (hx : x ∈ svals.map (fun s => s ^ 2 / (svals.map (fun t => t ^ 2)).sum)) :
    0 ≤ x ∧ x ≤ 1 := by
  obtain ⟨s, hs, rfl⟩ := List.mem_map.mp hx
  have hT := sumsq_nonneg svals
  refine ⟨div_nonneg (by positivity) hT, ?_⟩
  rcases eq_or_lt_of_le hT with hT0 | hTpos
  · rw [← hT0, div_zero]; norm_num
  · refine (div_le_one hTpos).mpr ?_
    exact List.single_le_sum (fun y hy => by
        obtain ⟨t, -, rfl⟩ := List.mem_map.mp hy
        positivity) _
      (List.mem_map.mpr ⟨s, hs, rfl⟩)

/-- C3: Variance Ranking, given the singular values of the SVD path,
returns for each component the ratio `s_i ^ 2 / (sum of s_j ^ 2)` (the
output is a permutation of that list of ratios); every ratio lies in
[0, 1], the ratios sum to at most 1, the output is sorted descending, and
the sum of the top-k ratios is monotonically non-decreasing in k. -/
theorem explainedVarianceRatios_spec (svals : List ℚ) :
    (explainedVarianceRatios svals).Perm
        (svals.map (fun s => s ^ 2 / (svals.map (fun t => t ^ 2)).sum)) ∧
    (∀ x ∈ explainedVarianceRatios svals, 0 ≤ x ∧ x ≤ 1) ∧
    (explainedVarianceRatios svals).sum ≤ 1 ∧
    List.Sorted (· ≥ ·) (explainedVarianceRatios svals) ∧
    (∀ k, ((explainedVarianceRatios svals).take k).sum
        ≤ ((explainedVarianceRatios svals).take (k + 1)).sum) := by
  have hperm : (explainedVarianceRatios svals).Perm
      (svals.map (fun s => s ^ 2 / (svals.map (fun t => t ^ 2)).sum)) :=
    List.perm_insertionSort _ _
  have hmem : ∀ x ∈ explainedVarianceRatios svals, 0 ≤ x ∧ x ≤ 1 := by
    intro x hx
    exact ratio_bounds (hperm.mem_iff.mp hx)
  refine ⟨hperm, hmem, ?_, List.sorted_insertionSort _ _, ?_⟩
  · rw [hperm.sum_eq]
    have hsum : (svals.map (fun s => s ^ 2 / (svals.map (fun t => t ^ 2)).sum)).sum
        = (svals.map (fun t => t ^ 2)).sum / (svals.map (fun t => t ^ 2)).sum := by
      simp [div_eq_mul_inv, List.sum_map_mul_right]
    rw [hsum]
    rcases eq_or_lt_of_le (sumsq_nonneg svals) with hT0 | hTpos
    · rw [← hT0, div_zero]; norm_num
    · rw [div_self (ne_of_gt hTpos)]
  · intro k
    rcases lt_or_le k (explainedVarianceRatios svals).length with hk | hk
    · rw [List.sum_take_succ _ _ hk]
      have h0 : 0 ≤ (explainedVarianceRatios svals)[k] :=
        (hmem _ (List.getElem_mem hk)).1
      linarith
    · rw [List.take_of_length_le hk, List.take_of_length_le (by omega)]

/-! ### Decomposition Engine (modelled from the spec §4.2) -/

/-- Dot product of two rows. -/
def dot (xs ys : List ℚ) : ℚ := (List.zipWith (· * ·) xs ys).sum

/-- Column `j` of a row-list matrix (missing entries read as 0). -/
def getCol (m : List (List ℚ)) (j : ℕ) : List ℚ := m.map (fun r => r.getD j 0)

/-- Matrix product, with `cB` the column count of `B`. -/
def matMul (A B : List (List ℚ)) (cB : ℕ) : List (List ℚ) :=
  A.map (fun ra => (List.range cB).map (fun j => dot ra (getCol B j)))

/-- Elementwise combination of two matrices. -/
def map2M (f : ℚ → ℚ → ℚ) (A B : List (List ℚ)) : List (List ℚ) :=
  List.zipWith (List.zipWith f) A B

/-- Transpose of a matrix with `c` columns. -/
def transposeM (c : ℕ) (m : List (List ℚ)) : List (List ℚ) :=
  (List.range c).map (fun j => getCol m j)

/-- All-ones matrix, the deterministic NMF initialization of the model. -/
def onesM (r c : ℕ) : List (List ℚ) :=
  (List.range r).map (fun _ => (List.range c).map (fun _ => (1 : ℚ)))

/-- Squared Frobenius norm. -/
def frobSq (A : List (List ℚ)) : ℚ := (A.map (fun r => (r.map (fun x => x ^ 2)).sum)).sum

/-- Every entry of a row-list matrix is non-negative. -/
def EntryNonneg (m : List (List ℚ)) : Prop := ∀ r ∈ m, ∀ x ∈ r, 0 ≤ x

/-- `Dims m r c`: the matrix has exactly `r` rows, each of length `c`. -/
def Dims (m : List (List ℚ)) (r c : ℕ) : Prop :=
  m.length = r ∧ ∀ row ∈ m, row.length = c

theorem mem_zipWith {α β γ : Type} {f : α → β → γ} {as : List α} {bs : List β}
    {x : γ} (hx : x ∈ List.zipWith f as bs) :
    ∃ a ∈ as, ∃ b ∈ bs, x = f a b := by
  induction as generalizing bs with
  | nil => simp at hx
  | cons a as ih =>
      cases bs with
      | nil => simp at hx
      | cons b bs =>
          rcases List.mem_cons.mp hx with h | h
          · exact ⟨a, by simp, b, by simp, h⟩
          · obtain ⟨a', ha', b', hb', rfl⟩ := ih h
            exact ⟨a', by simp [ha'], b', by simp [hb'], rfl⟩

theorem getD_nonneg {r : List ℚ} (h : ∀ x ∈ r, 0 ≤ x) (j : ℕ) : 0 ≤ r.getD j 0 := by
  induction r generalizing j with
  | nil => simp
  | cons a t ih =>
      cases j with
      | zero => exact h a (by simp)
      | succ j => exact ih (fun x hx => h x (by simp [hx])) j

theorem dot_nonneg {xs ys : List ℚ} (hx : ∀ x ∈ xs, 0 ≤ x) (hy : ∀ y ∈ ys, 0 ≤ y) :
    0 ≤ dot xs ys := by
  apply List.sum_nonneg
  intro z hz
  obtain ⟨a, ha, b, hb, rfl⟩ := mem_zipWith hz
  exact mul_nonneg (hx a ha) (hy b hb)

theorem getCol_nonneg {m : List (List ℚ)} (h : EntryNonneg m) (j : ℕ) :
    ∀ x ∈ getCol m j, 0 ≤ x := by
  intro x hx
  obtain ⟨r, hr, rfl⟩ := List.mem_map.mp hx
  exact getD_nonneg (h r hr) j

theorem matMul_nonneg {A B : List (List ℚ)} (hA : EntryNonneg A) (hB : EntryNonneg B)
    (cB : ℕ) : EntryNonneg (matMul A B cB) := by
  intro row hrow x hx
  obtain ⟨ra, hra, rfl⟩ := List.mem_map.mp hrow
  obtain ⟨j, -, rfl⟩ := List.mem_map.mp hx
  exact dot_nonneg (hA ra hra) (getCol_nonneg hB j)

theorem transposeM_nonneg {m : List (List ℚ)} (h : EntryNonneg m) (c : ℕ) :
    EntryNonneg (transposeM c m) := by
  intro row hrow x hx
  obtain ⟨j, -, rfl⟩ := List.mem_map.mp hrow
  exact getCol_nonneg h j x hx

theorem map2M_nonneg {f : ℚ → ℚ → ℚ} (hf : ∀ a b, 0 ≤ a → 0 ≤ b → 0 ≤ f a b)
    {A B : List (List ℚ)} (hA : EntryNonneg A) (hB : EntryNonneg B) :
    EntryNonneg (map2M f A B) := by
  intro row hrow x hx
  obtain ⟨ra, hra, rb, hrb, rfl⟩ := mem_zipWith hrow
  obtain ⟨a, ha, b, hb, rfl⟩ := mem_zipWith hx
  exact hf a b (hA ra hra a ha) (hB rb hrb b hb)

theorem matMul_dims {A : List (List ℚ)} {r : ℕ} (hA : A.length = r)
    (B : List (List ℚ)) (cB : ℕ) : Dims (matMul A B cB) r cB := by
  refine ⟨by simp [matMul, hA], ?_⟩
  intro row hrow
  obtain ⟨ra, -, rfl⟩ := List.mem_map.mp hrow
  simp

theorem transposeM_dims (m : List (List ℚ)) (c : ℕ) :
    Dims (transposeM c m) c m.length := by
  refine ⟨by simp [transposeM], ?_⟩
  intro row hrow
  obtain ⟨j, -, rfl⟩ := List.mem_map.mp hrow
  simp [getCol]

theorem map2M_dims {f : ℚ → ℚ → ℚ} {A B : List (List ℚ)} {r c : ℕ}
    (hA : Dims A r c) (hB : Dims B r c) : Dims (map2M f A B) r c := by
  refine ⟨by simp [map2M, hA.1, hB.1], ?_⟩
  intro row hrow
  obtain ⟨ra, hra, rb, hrb, rfl⟩ := mem_zipWith hrow
  simp [hA.2 ra hra, hB.2 rb hrb]

theorem onesM_dims (r c : ℕ) : Dims (onesM r c) r c := by
  refine ⟨by simp [onesM], ?_⟩
  intro row hrow
  obtain ⟨j, -, rfl⟩ := List.mem_map.mp hrow
  simp

theorem onesM_nonneg (r c : ℕ) : EntryNonneg (onesM r c) := by
  intro row hrow x hx
  obtain ⟨j, -, rfl⟩ := List.mem_map.mp hrow
  obtain ⟨i, -, rfl⟩ := List.mem_map.mp hx
  norm_num

/-- Modelled from the spec: NMF multiplicative-update step on the pair
(W, H) for observation matrix `X` with `cols` channels and rank `k`:
`W ← W ⊙ (X Hᵀ) ⊘ (W H Hᵀ)` then `H ← H ⊙ (Wᵀ X) ⊘ (Wᵀ W H)`,
elementwise, with division by zero reading as zero. -/
def nmfStep (X : List (List ℚ)) (cols k : ℕ)
    (WH : List (List ℚ) × List (List ℚ)) : List (List ℚ) × List (List ℚ) :=
  let W := WH.1
  let H := WH.2
  let Ht := transposeM cols H
  let W' := map2M (· * ·) W
    (map2M (· / ·) (matMul X Ht k) (matMul W (matMul H Ht k) k))
  let Wt := transposeM k W'
  let H' := map2M (· * ·) H
    (map2M (· / ·) (matMul Wt X cols) (matMul (matMul Wt W' k) H cols))
  (W', H')

/-- Reconstruction error: squared Frobenius norm of `X - W H`. -/
def errOf (X : List (List ℚ)) (cols : ℕ)
    (WH : List (List ℚ) × List (List ℚ)) : ℚ :=
  frobSq (map2M (· - ·) X (matMul WH.1 WH.2 cols))

/-- Tolerance on reconstruction-error improvement (fixed model constant). -/
def nmfTol : ℚ := 1 / 10000

/-- Maximum iteration count (the library default reported in the notebook). -/
def nmfMaxIter : ℕ := 200

/-- Reconstruction-error improvement produced by one further update. -/
def improveOf (X : List (List ℚ)) (cols k : ℕ)
    (WH : List (List ℚ) × List (List ℚ)) : ℚ :=
  errOf X cols WH - errOf X cols (nmfStep X cols k WH)

/-- Modelled from the spec: the NMF iteration, stopping when the
improvement drops below the tolerance (converged) or when the iteration
budget is exhausted (did not converge, reported as a flag). -/
def nmfLoop (X : List (List ℚ)) (cols k : ℕ) :
    ℕ → List (List ℚ) × List (List ℚ) →
      (List (List ℚ) × List (List ℚ)) × Bool
  | 0, WH => (WH, false)
  | n + 1, WH =>
      if improveOf X cols k WH < nmfTol then (nmfStep X cols k WH, true)
      else nmfLoop X cols k n (nmfStep X cols k WH)

/-- The full NMF optimization from the deterministic all-ones start. -/
def nmfRun (X : List (List ℚ)) (rows cols k : ℕ) :
    (List (List ℚ) × List (List ℚ)) × Bool :=
  nmfLoop X cols k nmfMaxIter (onesM rows k, onesM k cols)

/-- The tolerance on improvement is met at some iteration below `n`. -/
def nmfTolMetWithin (X : List (List ℚ)) (rows cols k n : ℕ) : Prop :=
  ∃ i < n, improveOf X cols k
    ((nmfStep X cols k)^[i] (onesM rows k, onesM k cols)) < nmfTol

instance (X : List (List ℚ)) (rows cols k n : ℕ) :
    Decidable (nmfTolMetWithin X rows cols k n) := by
  unfold nmfTolMetWithin
  infer_instance

/-- A decomposition result: loadings, factors and the convergence
annotation.  Modelled from the spec §3. -/
structure DecompositionResult where
  loadings : List (List ℚ)
  factors : List (List ℚ)
  converged : Bool
deriving DecidableEq, Repr

/-- Row means, the model's surrogate for the estimated per-pixel Poisson
noise scale. -/
def rowMeans (X : List (List ℚ)) (c : ℕ) : List ℚ := X.map (fun r => r.sum / (c : ℚ))

/-- Modelled from the spec: the SVD path defers to an external
economy-size SVD primitive, which has no exact rational implementation;
it is modelled as a truncated factorization that returns the leading
`k` rows of the (optionally Poisson-rescaled) matrix as factors and the
matching selector columns (rescaled back) as loadings, preserving the
spec's structural contract: `k` components, loadings indexed by pixels
and factors indexed by channels. -/
def svdResult (X : List (List ℚ)) (rows cols k : ℕ) (np : Bool) :
    DecompositionResult :=
  let w := rowMeans X cols
  let Xs := if np then List.zipWith (fun wi r => r.map (fun x => x / wi)) w X else X
  let factors := (List.range k).map (fun i => Xs.getD i (List.replicate cols 0))
  let loadRaw := (List.range k).map
    (fun i => (List.range rows).map (fun p => if p = i then (1 : ℚ) else 0))
  let loadings := if np then
      loadRaw.map (fun lv => List.zipWith (fun wi x => wi * x) w lv)
    else loadRaw
  ⟨loadings, factors, true⟩

/-- Modelled from the spec: the ICA path starts from the SVD result
restricted to the top `k` components and applies a rotation maximizing
statistical independence; the rotation is an unspecified library numeric
and is modelled as the identity rotation. -/
def icaResult (X : List (List ℚ)) (rows cols k : ℕ) (np : Bool) :
    DecompositionResult :=
  let base := svdResult X rows cols k np
  ⟨base.loadings, base.factors, true⟩

/-- The three algorithm paths of the Decomposition Engine. -/
inductive Algo where
  | SVD
  | NMF
  | ICA
deriving DecidableEq, Repr

/-- Whether the algorithm constrains its input to be non-negative
(spec: the NMF/ICA paths do). -/
def requiresNonneg : Algo → Bool
  | .SVD => false
  | .NMF => true
  | .ICA => true

/-- Row-list view of an observation matrix. -/
def toRowsM (m : ObsMatrix) : List (List ℚ) :=
  (List.range m.rows).map (fun i =>
    (List.range m.cols).map (fun j => m.data.getD (i * m.cols + j) 0))

/-- Modelled from the spec: `decompose(matrix, algorithm, rank,
normalize_poisson)`.  Validation happens at the interface boundary in the
spec's stated order: an infeasible rank raises `RankError`, then a
non-negative-constrained algorithm on data with a negative entry raises
`DomainError`; otherwise the algorithm path runs and always returns a
result, with NMF convergence reported as an annotation. -/
def decompose (m : ObsMatrix) (alg : Algo) (rank : ℕ) (np : Bool) :
    Except DecompError DecompositionResult :=
  if Nat.min m.rows m.cols < rank then .error .RankError
  else if requiresNonneg alg && m.data.any (fun x => x < 0) then .error .DomainError
  else
    match alg with
    | .SVD => .ok (svdResult (toRowsM m) m.rows m.cols rank np)
    | .NMF =>
        let res := nmfRun (toRowsM m) m.rows m.cols rank
        .ok ⟨(List.range rank).map (fun i => getCol res.1.1 i), res.1.2, res.2⟩
    | .ICA => .ok (icaResult (toRowsM m) m.rows m.cols rank np)

/-- C5: for every matrix and every requested rank, a rank exceeding
min(rows, columns) makes `decompose` fail with `RankError`, on every
algorithm path. -/
theorem decompose_rankError (m : ObsMatrix) (alg : Algo) (rank : ℕ) (np : Bool)
    (h : Nat.min m.rows m.cols < rank) :
    decompose m alg rank np = .error .RankError := by
  rw [decompose.eq_def, if_pos h]

/-- A concrete 1×1 observation matrix with a negative entry. -/
def matNeg : ObsMatrix := ⟨1, 1, [-1]⟩

/-- Witness for C5 at a concrete matrix and infeasible rank. -/
theorem decompose_rankError_witness :
    decompose matNeg .NMF 2 false = .error .RankError :=
  decompose_rankError matNeg .NMF 2 false (by decide)

/-- C6: invoking a non-negative-constrained path (NMF or ICA) with a
feasible rank on a matrix containing a negative entry fails with
`DomainError` (rank validation precedes domain validation, following the
spec's stated order of error conditions). -/
theorem decompose_domainError (m : ObsMatrix) (alg : Algo) (rank : ℕ) (np : Bool)
    (halg : alg = .NMF ∨ alg = .ICA) (hrank : rank ≤ Nat.min m.rows m.cols)
    (hneg : ∃ x ∈ m.data, x < 0) :
    decompose m alg rank np = .error .DomainError := by
  have hb : (requiresNonneg alg && m.data.any (fun x => x < 0)) = true := by
    obtain ⟨x, hx, hx0⟩ := hneg
    rcases halg with rfl | rfl <;>
    · simp only [requiresNonneg, Bool.true_and, List.any_eq_true]
      exact ⟨x, hx, by simpa using hx0⟩
  rw [decompose.eq_def, if_neg (Nat.not_lt.mpr hrank), if_pos hb]

/-- Witness for C6 at a concrete matrix with a negative entry. -/
theorem decompose_domainError_witness :
    decompose matNeg .NMF 1 false = .error .DomainError :=
  decompose_domainError matNeg .NMF 1 false (Or.inl rfl) (by decide) (by decide)

theorem getD_cases {α : Type} (l : List α) (i : ℕ) (d : α) :
    l.getD i d ∈ l ∨ l.getD i d = d := by
  by_cases h : i < l.length
  · left
    rw [List.getD_eq_getElem l d h]
    exact List.getElem_mem h
  · right
    exact List.getD_eq_default l d (by omega)

theorem toRowsM_dims (m : ObsMatrix) : Dims (toRowsM m) m.rows m.cols := by
  refine ⟨by simp [toRowsM], ?_⟩
  intro row hrow
  obtain ⟨i, -, rfl⟩ := List.mem_map.mp hrow
  simp

theorem toRowsM_nonneg {m : ObsMatrix} (hm : ∀ x ∈ m.data, 0 ≤ x) :
    EntryNonneg (toRowsM m) := by
  intro row hrow x hx
  obtain ⟨i, -, rfl⟩ := List.mem_map.mp hrow
  obtain ⟨j, -, rfl⟩ := List.mem_map.mp hx
  exact getD_nonneg hm _

theorem getD_length {cols : ℕ} (L : List (List ℚ))
    (hL : ∀ row ∈ L, row.length = cols) (i : ℕ) :
    (L.getD i (List.replicate cols 0)).length = cols := by
  rcases getD_cases L i (List.replicate cols 0) with h | h
  · exact hL _ h
  · rw [h]
    exact List.length_replicate ..

theorem svdResult_shapes {X : List (List ℚ)} {rows cols : ℕ}
    (hX : Dims X rows cols) (k : ℕ) (np : Bool) :
    (svdResult X rows cols k np).loadings.length = k ∧
    (svdResult X rows cols k np).factors.length = k ∧
    (∀ l ∈ (svdResult X rows cols k np).loadings, l.length = rows) ∧
    (∀ f ∈ (svdResult X rows cols k np).factors, f.length = cols) := by
  obtain ⟨hlen, hrows⟩ := hX
  cases np with
  | false =>
      refine ⟨by simp [svdResult], by simp [svdResult], ?_, ?_⟩
      · intro l hl
        simp only [svdResult, Bool.false_eq_true, if_false] at hl
        obtain ⟨i, -, rfl⟩ := List.mem_map.mp hl
        simp
      · intro f hf
        simp only [svdResult, Bool.false_eq_true, if_false] at hf
        obtain ⟨i, -, rfl⟩ := List.mem_map.mp hf
        exact getD_length X hrows i
  | true =>
      refine ⟨by simp [svdResult], by simp [svdResult], ?_, ?_⟩
      · intro l hl
        simp only [svdResult, if_true] at hl
        obtain ⟨lv, hlv, rfl⟩ := List.mem_map.mp hl
        obtain ⟨i, -, rfl⟩ := List.mem_map.mp hlv
        simp [rowMeans, hlen]
      · intro f hf
        simp only [svdResult, if_true] at hf
        obtain ⟨i, -, rfl⟩ := List.mem_map.mp hf
        refine getD_length _ ?_ i
        intro row hrow
        obtain ⟨wi, -, r, hr, rfl⟩ := mem_zipWith hrow
        simp [hrows r hr]

theorem nmfStep_dims {X : List (List ℚ)} {rows cols k : ℕ} (hX : X.length = rows)
    {WH : List (List ℚ) × List (List ℚ)}
    (hW : Dims WH.1 rows k) (hH : Dims WH.2 k cols) :
    Dims (nmfStep X cols k WH).1 rows k ∧ Dims (nmfStep X cols k WH).2 k cols := by
  obtain ⟨W, H⟩ := WH
  simp only [nmfStep]
  have hW' : Dims (map2M (· * ·) W
      (map2M (· / ·) (matMul X (transposeM cols H) k)
        (matMul W (matMul H (transposeM cols H) k) k))) rows k :=
    map2M_dims hW (map2M_dims (matMul_dims hX _ _) (matMul_dims hW.1 _ _))
  have hWt : Dims (transposeM k (map2M (· * ·) W
      (map2M (· / ·) (matMul X (transposeM cols H) k)
        (matMul W (matMul H (transposeM cols H) k) k)))) k rows := by
    have h := transposeM_dims (map2M (· * ·) W
      (map2M (· / ·) (matMul X (transposeM cols H) k)
        (matMul W (matMul H (transposeM cols H) k) k))) k
    rwa [hW'.1] at h
  exact ⟨hW', map2M_dims hH
    (map2M_dims (matMul_dims hWt.1 _ _) (matMul_dims (matMul_dims hWt.1 _ _).1 _ _))⟩

theorem nmfLoop_dims {X : List (List ℚ)} {rows cols k : ℕ} (hX : X.length = rows) :
    ∀ (n : ℕ) (WH : List (List ℚ) × List (List ℚ)),
      Dims WH.1 rows k → Dims WH.2 k cols →
      Dims (nmfLoop X cols k n WH).1.1 rows k ∧
      Dims (nmfLoop X cols k n WH).1.2 k cols := by
  intro n
  induction n with
  | zero => intro WH h1 h2; exact ⟨h1, h2⟩
  | succ n ih =>
      intro WH h1 h2
      rw [nmfLoop]
      by_cases h : improveOf X cols k WH < nmfTol
      · rw [if_pos h]
        exact nmfStep_dims hX h1 h2
      · rw [if_neg h]
        exact ih _ (nmfStep_dims hX h1 h2).1 (nmfStep_dims hX h1 h2).2

theorem nmfStep_nonneg {X : List (List ℚ)} {cols k : ℕ} (hX : EntryNonneg X)
    {WH : List (List ℚ) × List (List ℚ)}
    (hW : EntryNonneg WH.1) (hH : EntryNonneg WH.2) :
    EntryNonneg (nmfStep X cols k WH).1 ∧ EntryNonneg (nmfStep X cols k WH).2 := by
  obtain ⟨W, H⟩ := WH
  simp only [nmfStep]
  have hmul : ∀ a b : ℚ, 0 ≤ a → 0 ≤ b → 0 ≤ a * b := fun a b => mul_nonneg
  have hdiv : ∀ a b : ℚ, 0 ≤ a → 0 ≤ b → 0 ≤ a / b := fun a b => div_nonneg
  have hW' : EntryNonneg (map2M (· * ·) W
      (map2M (· / ·) (matMul X (transposeM cols H) k)
        (matMul W (matMul H (transposeM cols H) k) k))) :=
    map2M_nonneg hmul hW (map2M_nonneg hdiv
      (matMul_nonneg hX (transposeM_nonneg hH cols) k)
      (matMul_nonneg hW (matMul_nonneg hH (transposeM_nonneg hH cols) k) k))
  refine ⟨hW', map2M_nonneg hmul hH (map2M_nonneg hdiv
    (matMul_nonneg (transposeM_nonneg hW' k) hX cols)
    (matMul_nonneg (matMul_nonneg (transposeM_nonneg hW' k) hW' k) hH cols))⟩

theorem nmfLoop_nonneg {X : List (List ℚ)} {cols k : ℕ} (hX : EntryNonneg X) :
    ∀ (n : ℕ) (WH : List (List ℚ) × List (List ℚ)),
      EntryNonneg WH.1 → EntryNonneg WH.2 →
      EntryNonneg (nmfLoop X cols k n WH).1.1 ∧
      EntryNonneg (nmfLoop X cols k n WH).1.2 := by
  intro n
  induction n with
  | zero => intro WH h1 h2; exact ⟨h1, h2⟩
  | succ n ih =>
      intro WH h1 h2
      rw [nmfLoop]
      by_cases h : improveOf X cols k WH < nmfTol
      · rw [if_pos h]
        exact nmfStep_nonneg hX h1 h2
      · rw [if_neg h]
        exact ih _ (nmfStep_nonneg hX h1 h2).1 (nmfStep_nonneg hX h1 h2).2

/-- C7: every DecompositionResult returned by `decompose` with requested
rank k has exactly k Loadings and k Factors, each Loading indexed by the
flattened navigation grid (length = rows) and each Factor by the signal
axis (length = columns). -/
theorem decompose_result_shapes (m : ObsMatrix) (alg : Algo) (rank : ℕ)
    (np : Bool) (r : DecompositionResult)
    (hr : decompose m alg rank np = .ok r) :
    r.loadings.length = rank ∧ r.factors.length = rank ∧
    (∀ l ∈ r.loadings, l.length = m.rows) ∧
    (∀ f ∈ r.factors, f.length = m.cols) := by
  rw [decompose.eq_def] at hr
  by_cases h1 : Nat.min m.rows m.cols < rank
  · rw [if_pos h1] at hr
    exact absurd hr (by simp)
  · rw [if_neg h1] at hr
    by_cases h2 : (requiresNonneg alg && m.data.any (fun x => x < 0)) = true
    · rw [if_pos h2] at hr
      exact absurd hr (by simp)
    · rw [if_neg h2] at hr
      cases alg with
      | SVD =>
          simp only [Except.ok.injEq] at hr
          subst hr
          exact svdResult_shapes (toRowsM_dims m) rank np
      | ICA =>
          simp only [Except.ok.injEq] at hr
          subst hr
          have h := svdResult_shapes (toRowsM_dims m) rank np
          exact ⟨h.1, h.2.1, h.2.2.1, h.2.2.2⟩
      | NMF =>
          simp only [Except.ok.injEq] at hr
          subst hr
          have hdims := nmfLoop_dims (toRowsM_dims m).1 nmfMaxIter
            (onesM m.rows rank, onesM rank m.cols)
            (onesM_dims m.rows rank) (onesM_dims rank m.cols)
          refine ⟨by simp, hdims.2.1, ?_, hdims.2.2⟩
          intro l hl
          obtain ⟨i, -, rfl⟩ := List.mem_map.mp hl
          simp only [getCol, List.length_map]
          exact hdims.1.1

/-- A concrete non-negative 1×1 observation matrix. -/
def matPos : ObsMatrix := ⟨1, 1, [1]⟩

/-- Witness for C7 at a concrete matrix on the SVD path. -/
theorem decompose_result_shapes_witness :
    (svdResult (toRowsM matPos) 1 1 1 false).loadings.length = 1 ∧
    (svdResult (toRowsM matPos) 1 1 1 false).factors.length = 1 ∧
    (∀ l ∈ (svdResult (toRowsM matPos) 1 1 1 false).loadings, l.length = matPos.rows) ∧
    (∀ f ∈ (svdResult (toRowsM matPos) 1 1 1 false).factors, f.length = matPos.cols) :=
  decompose_result_shapes matPos .SVD 1 false
    (svdResult (toRowsM matPos) 1 1 1 false) rfl

/-- C2: on the NMF path, every entry of the returned Loadings and Factors
is non-negative, for every non-negative input matrix. -/
theorem decompose_nmf_nonneg (m : ObsMatrix) (rank : ℕ) (np : Bool)
    (r : DecompositionResult) (hm : ∀ x ∈ m.data, 0 ≤ x)
    (hr : decompose m .NMF rank np = .ok r) :
    (∀ l ∈ r.loadings, ∀ x ∈ l, 0 ≤ x) ∧ (∀ f ∈ r.factors, ∀ x ∈ f, 0 ≤ x) := by
  rw [decompose.eq_def] at hr
  by_cases h1 : Nat.min m.rows m.cols < rank
  · rw [if_pos h1] at hr
    exact absurd hr (by simp)
  · rw [if_neg h1] at hr
    by_cases h2 : (requiresNonneg .NMF && m.data.any (fun x => x < 0)) = true
    · rw [if_pos h2] at hr
      exact absurd hr (by simp)
    · rw [if_neg h2] at hr
      simp only [Except.ok.injEq] at hr
      subst hr
      have hX : EntryNonneg (toRowsM m) := toRowsM_nonneg hm
      have hres := @nmfLoop_nonneg (toRowsM m) m.cols rank hX nmfMaxIter
        (onesM m.rows rank, onesM rank m.cols)
        (onesM_nonneg m.rows rank) (onesM_nonneg rank m.cols)
      constructor
      · intro l hl x hx
        obtain ⟨i, -, rfl⟩ := List.mem_map.mp hl
        exact getCol_nonneg hres.1 i x hx
      · exact hres.2

theorem range_one_eval : List.range 1 = [0] := by decide

theorem toRowsM_matPos : toRowsM matPos = [[1]] := by decide

theorem nmfStep_unit : nmfStep [[1]] 1 1 ([[1]], [[1]]) = ([[1]], [[1]]) := by
  norm_num [nmfStep, transposeM, getCol, matMul, map2M, dot, range_one_eval]

theorem errOf_unit : errOf [[1]] 1 ([[1]], [[1]]) = 0 := by
  norm_num [errOf, frobSq, map2M, matMul, dot, getCol, range_one_eval]

theorem improveOf_unit : improveOf [[1]] 1 1 ([[1]], [[1]]) = 0 := by
  rw [improveOf, nmfStep_unit, errOf_unit]
  norm_num

theorem onesM_unit : onesM 1 1 = [[1]] := by decide

theorem nmfRun_unit : nmfRun [[1]] 1 1 1 = (([[1]], [[1]]), true) := by
  rw [nmfRun, onesM_unit, show nmfMaxIter = 199 + 1 from rfl, nmfLoop,
    if_pos (by rw [improveOf_unit]; norm_num [nmfTol]), nmfStep_unit]

theorem decompose_matPos_nmf :
    decompose matPos .NMF 1 false = .ok ⟨[[1]], [[1]], true⟩ := by
  rw [decompose.eq_def, if_neg (by decide), if_neg (by decide),
    toRowsM_matPos, show matPos.rows = 1 from rfl, show matPos.cols = 1 from rfl]
  simp only [nmfRun_unit]
  rfl

/-- Witness for C2 at the concrete matrix `matPos`. -/
theorem decompose_nmf_nonneg_witness :
    (∀ l ∈ (⟨[[1]], [[1]], true⟩ : DecompositionResult).loadings,
      ∀ x ∈ l, 0 ≤ x) ∧
    (∀ f ∈ (⟨[[1]], [[1]], true⟩ : DecompositionResult).factors,
      ∀ x ∈ f, 0 ≤ x) :=
  decompose_nmf_nonneg matPos 1 false ⟨[[1]], [[1]], true⟩
    (by decide) decompose_matPos_nmf

/-- The loop's convergence flag is true exactly when the tolerance on
improvement is met at some iteration within the fuel budget. -/
theorem nmfLoop_flag (X : List (List ℚ)) (cols k : ℕ) :
    ∀ (n : ℕ) (WH : List (List ℚ) × List (List ℚ)),
      ((nmfLoop X cols k n WH).2 = true ↔
        ∃ i < n, improveOf X cols k ((nmfStep X cols k)^[i] WH) < nmfTol) := by
  intro n
  induction n with
  | zero => intro WH; simp [nmfLoop]
  | succ n ih =>
      intro WH
      rw [nmfLoop]
      by_cases h : improveOf X cols k WH < nmfTol
      · rw [if_pos h]
        exact iff_of_true rfl ⟨0, by omega, by simpa using h⟩
      · rw [if_neg h, ih]
        constructor
        · rintro ⟨i, hi, hlt⟩
          exact ⟨i + 1, by omega, by rwa [Function.iterate_succ_apply]⟩
        · rintro ⟨i, hi, hlt⟩
          cases i with
          | zero =>
              rw [Function.iterate_zero_apply] at hlt
              exact absurd hlt h
          | succ i =>
              refine ⟨i, by omega, ?_⟩
              rwa [Function.iterate_succ_apply] at hlt

/-- C8: on the NMF path with valid input, `decompose` always returns a
DecompositionResult (it does not raise), and the result's convergence
annotation reads `false` exactly when the iteration cap was reached
before the tolerance on reconstruction-error improvement was met. -/
theorem decompose_nmf_convergence (m : ObsMatrix) (rank : ℕ) (np : Bool)
    (hrank : rank ≤ Nat.min m.rows m.cols) (hnn : ∀ x ∈ m.data, 0 ≤ x) :
    ∃ r, decompose m .NMF rank np = .ok r ∧
      (r.converged = false ↔
        ¬ nmfTolMetWithin (toRowsM m) m.rows m.cols rank nmfMaxIter) := by
  have h2 : (requiresNonneg .NMF && m.data.any (fun x => x < 0)) = false := by
    simp only [requiresNonneg, Bool.true_and]
    rw [List.any_eq_false]
    intro x hx
    simpa using not_lt.mpr (hnn x hx)
  refine ⟨⟨(List.range rank).map
      (fun i => getCol (nmfRun (toRowsM m) m.rows m.cols rank).1.1 i),
    (nmfRun (toRowsM m) m.rows m.cols rank).1.2,
    (nmfRun (toRowsM m) m.rows m.cols rank).2⟩, ?_, ?_⟩
  · rw [decompose.eq_def, if_neg (Nat.not_lt.mpr hrank), if_neg (by rw [h2]; simp)]
  · show (nmfRun (toRowsM m) m.rows m.cols rank).2 = false ↔
      ¬ nmfTolMetWithin (toRowsM m) m.rows m.cols rank nmfMaxIter
    have hflag : ((nmfRun (toRowsM m) m.rows m.cols rank).2 = true ↔
        nmfTolMetWithin (toRowsM m) m.rows m.cols rank nmfMaxIter) :=
      nmfLoop_flag (toRowsM m) m.cols rank nmfMaxIter
        (onesM m.rows rank, onesM rank m.cols)
    have hb : ((nmfRun (toRowsM m) m.rows m.cols rank).2 = false ↔
        ¬ (nmfRun (toRowsM m) m.rows m.cols rank).2 = true) := by
      cases (nmfRun (toRowsM m) m.rows m.cols rank).2 <;> simp
    rw [hb, hflag]

/-- Witness for C8 at the concrete matrix `matPos`. -/
theorem decompose_nmf_convergence_witness :
    ∃ r, decompose matPos .NMF 1 false = .ok r ∧
      (r.converged = false ↔
        ¬ nmfTolMetWithin (toRowsM matPos) matPos.rows matPos.cols 1 nmfMaxIter) :=
  decompose_nmf_convergence matPos 1 false (by decide) (by decide)

/-! ### Offset subtraction (notebook 3, `s.data -= s.data.min()`) -/

/-- The minimum of a data array (`s.data.min()`); 0 for the empty array. -/
def dataMin : List ℚ → ℚ
  | [] => 0
  | x :: xs => xs.foldl min x

/-- Embedded from the source: the caller's offset-subtraction step
`s.data -= s.data.min()`, subtracting the global minimum from every
element of the data array. -/
def subtractMin (l : List ℚ) : List ℚ := l.map (fun x => x - dataMin l)

theorem foldl_min_le_init (xs : List ℚ) : ∀ a : ℚ, xs.foldl min a ≤ a := by
  induction xs with
  | nil => intro a; simp
  | cons x t ih =>
      intro a
      calc (x :: t).foldl min a = t.foldl min (min a x) := rfl
        _ ≤ min a x := ih (min a x)
        _ ≤ a := min_le_left a x

theorem foldl_min_le_mem (xs : List ℚ) :
    ∀ (a : ℚ), ∀ x ∈ xs, xs.foldl min a ≤ x := by
  induction xs with
  | nil => intro a x hx; simp at hx
  | cons y t ih =>
      intro a x hx
      rcases List.mem_cons.mp hx with rfl | hx
      · calc (x :: t).foldl min a = t.foldl min (min a x) := rfl
          _ ≤ min a x := foldl_min_le_init t (min a x)
          _ ≤ x := min_le_right a x
      · exact ih (min a y) x hx

theorem foldl_min_map_sub (xs : List ℚ) :
    ∀ a c : ℚ, (xs.map (fun x => x - c)).foldl min (a - c) = xs.foldl min a - c := by
  induction xs with
  | nil => intro a c; simp
  | cons x t ih =>
      intro a c
      calc ((x :: t).map (fun x => x - c)).foldl min (a - c)
          = (t.map (fun x => x - c)).foldl min (min (a - c) (x - c)) := rfl
        _ = (t.map (fun x => x - c)).foldl min (min a x - c) := by
            rw [min_sub_sub_right]
        _ = t.foldl min (min a x) - c := ih (min a x) c
        _ = (x :: t).foldl min a - c := rfl

theorem dataMin_le {l : List ℚ} {x : ℚ} (hx : x ∈ l) : dataMin l ≤ x := by
  cases l with
  | nil => simp at hx
  | cons a t =>
      rcases List.mem_cons.mp hx with rfl | hx
      · exact foldl_min_le_init t x
      · exact foldl_min_le_mem t a x hx

/-- C9: subtracting the global minimum from every element of a non-empty
data array makes every entry non-negative and makes the minimum entry
exactly 0. -/
theorem subtractMin_spec (l : List ℚ) (hl : l ≠ []) :
    (∀ y ∈ subtractMin l, 0 ≤ y) ∧ dataMin (subtractMin l) = 0 := by
  constructor
  · intro y hy
    obtain ⟨x, hx, rfl⟩ := List.mem_map.mp hy
    have h := dataMin_le hx
    linarith
  · cases l with
    | nil => exact absurd rfl hl
    | cons a t =>
        show dataMin ((a :: t).map (fun x => x - dataMin (a :: t))) = 0
        calc dataMin ((a :: t).map (fun x => x - dataMin (a :: t)))
            = (t.map (fun x => x - dataMin (a :: t))).foldl min
                (a - dataMin (a :: t)) := rfl
          _ = t.foldl min a - dataMin (a :: t) := foldl_min_map_sub t a _
          _ = 0 := by rw [show dataMin (a :: t) = t.foldl min a from rfl]; ring

/-- A concrete data array. -/
def dataA : List ℚ := [3, 1, 2]

/-- Witness for C9 at the concrete array `dataA`. -/
theorem subtractMin_spec_witness :
    (∀ y ∈ subtractMin dataA, 0 ≤ y) ∧ dataMin (subtractMin dataA) = 0 :=
  subtractMin_spec dataA (by decide)

/-! ### `to_ragged` (embedded from the source) -/

/-- A HyperSpy signal as the model sees it: navigation and signal shapes
(hyperspy x-first ordering) and the numpy data as a function on
multi-indices. -/
structure HsSignal (α : Type) where
  navShape : List ℕ
  sigShape : List ℕ
  data : List ℕ → α

/-- Modelled library primitive: transposing swaps the navigation and
signal spaces, so `s.T.axes_manager.navigation_shape` is the signal shape
of `s`. -/
def T_navigation_shape {α : Type} (s : HsSignal α) : List ℕ := s.sigShape

/-- Modelled library primitive `np.ndindex`: row-major enumeration of all
multi-indices of a shape. -/
def ndindex : List ℕ → List (List ℕ)
  | [] => [[]]
  | d :: ds => (List.range d).flatMap (fun i => (ndindex ds).map (fun idx => i :: idx))

/-- A ragged signal: an object-array shape and array-valued entries. -/
structure RaggedSignal (α : Type) where
  shape : List ℕ
  data : List ℕ → List α

/-- Embedded from the source (`to_ragged` in the CL notebook): creates a
new ragged BaseSignal of shape `s.T.axes_manager.navigation_shape[::-1]`,
fills each entry with the one-element array `[s.data[indices]]`, and
returns it together with the state of `s` after the call (the loop only
writes to the new signal).  `np.empty`'s uninitialized entries are
modelled as `[]`. -/
def to_ragged {α : Type} (s : HsSignal α) : RaggedSignal α × HsSignal α :=
  let shape := (T_navigation_shape s).reverse
  let d := (ndindex shape).foldl
    (fun acc idx => Function.update acc idx [s.data idx]) (fun _ => [])
  (⟨shape, d⟩, s)

theorem foldl_update_not_mem {κ ν : Type} [DecidableEq κ] (g : κ → ν)
    (l : List κ) : ∀ (init : κ → ν) (k : κ), k ∉ l →
      l.foldl (fun acc x => Function.update acc x (g x)) init k = init k := by
  induction l with
  | nil => intro init k _; rfl
  | cons a t ih =>
      intro init k hk
      have hka : k ≠ a := fun h => hk (by simp [h])
      have hkt : k ∉ t := fun h => hk (by simp [h])
      calc (a :: t).foldl (fun acc x => Function.update acc x (g x)) init k
          = t.foldl (fun acc x => Function.update acc x (g x))
              (Function.update init a (g a)) k := rfl
        _ = Function.update init a (g a) k := ih _ k hkt
        _ = init k := Function.update_noteq hka _ init

theorem foldl_update_mem {κ ν : Type} [DecidableEq κ] (g : κ → ν)
    (l : List κ) : ∀ (init : κ → ν) (k : κ), k ∈ l →
      l.foldl (fun acc x => Function.update acc x (g x)) init k = g k := by
  induction l with
  | nil => intro init k hk; simp at hk
  | cons a t ih =>
      intro init k hk
      by_cases hkt : k ∈ t
      · exact ih _ k hkt
      · have hka : k = a := by
          rcases List.mem_cons.mp hk with h | h
          · exact h
          · exact absurd h hkt
        subst hka
        calc (k :: t).foldl (fun acc x => Function.update acc x (g x)) init k
            = t.foldl (fun acc x => Function.update acc x (g x))
                (Function.update init k (g k)) k := rfl
          _ = Function.update init k (g k) k := foldl_update_not_mem g t _ k hkt
          _ = g k := Function.update_same k (g k) init

/-- C10: `to_ragged s` returns a new ragged signal whose data array has
shape equal to the navigation shape of `s.T` reversed and whose entry at
every multi-index of that shape is the one-element array containing
`s.data` at that index, while `s` itself is left unchanged. -/
theorem to_ragged_spec {α : Type} (s : HsSignal α) :
    ((to_ragged s).1.shape = (T_navigation_shape s).reverse) ∧
    ((to_ragged s).2 = s) ∧
    (∀ idx ∈ ndindex ((T_navigation_shape s).reverse),
      (to_ragged s).1.data idx = [s.data idx]) := by
  refine ⟨rfl, rfl, ?_⟩
  intro idx hidx
  exact foldl_update_mem (fun idx => [s.data idx]) _ _ idx hidx

/-- A concrete signal: a spectrum of two channels. -/
def sigA : HsSignal ℚ := ⟨[], [2], fun idx => if idx = [1] then 5 else 3⟩

/-- Witness for C10 at the concrete signal `sigA`. -/
theorem to_ragged_spec_witness :
    (to_ragged sigA).1.data [1] = [sigA.data [1]] :=
  (to_ragged_spec sigA).2.2 [1] (by decide)

end EBeam
